import Mathlib
set_option linter.unusedVariables false

/-!
# Verification of the etcdotica reconciliation and section-merge engine

This file gives a shallow embedding, in Lean 4, of the core algorithms of the
`etcdotica` tool (Go sources: `cmd/etcdotica/sections.go`,
`cmd/etcdotica/fileutils.go`, `cmd/etcdotica/syncer.go`,
`cmd/etcdotica/sys_unix.go`, plus the state-store and main-loop files), and
proves properties of that embedding.

Modelling conventions:
* file contents are `List Char` (one entry per byte/character; UTF-8 byte
  order and Unicode code-point order agree, so `Char`-wise lexicographic
  comparison coincides with Go's byte-wise `string` comparison);
* a `Line` is a `List Char` that carries no terminating newline, exactly like
  the elements produced by Go's `splitLines`;
* Go's `os.FileMode` values are `Nat` with explicit bit operations;
* fallible Go functions returning `(..., error)` become `Except String ...`;
* recursion that the Go source drives with a mutable loop index is expressed
  with an explicit fuel argument, so every definition is executable by the
  kernel; `fuel` is always called with a value large enough that the
  exhaustion branch is unreachable (this is proved where needed).
-/

namespace Etcdotica

/-- A line of text: characters of one line, no newline terminator. -/
abbrev Line := List Char

/-! ## Byte/line conversion (`fileutils.go`: `splitLines`, and serialization) -/

/-- Split a character sequence at every newline character, mirroring Go's
`strings.Split(string(b), "\n")`: there is always at least one (possibly
empty) piece. -/
def splitOnNl : List Char → List Line
  | [] => [[]]
  | c :: rest =>
    if c = '\n' then [] :: splitOnNl rest
    else
      match splitOnNl rest with
      | [] => [[c]]
      | l :: ls => (c :: l) :: ls

/-- `splitLines` of `fileutils.go`: split on newlines and remove the trailing
empty piece produced by a terminating newline. -/
def splitLines (b : List Char) : List Line :=
  let lines := splitOnNl b
  if lines.getLast? = some ([] : Line) then lines.dropLast else lines

/-- Serialize lines back to bytes, one trailing newline per line. This is the
inner loop of `serializeBlocks` in `sections.go` (and the write loop of
`saveState`). -/
def serializeLines : List Line → List Char
  | [] => []
  | l :: ls => l ++ '\n' :: serializeLines ls

/-! ## Section markers (`main.go`: `beginSectionRx`, `endSectionRx`) -/

/-- The characters of the `# BEGIN ` marker. -/
def beginMarker : List Char := "# BEGIN ".data

/-- The characters of the `# END ` marker. -/
def endMarker : List Char := "# END ".data

/-- Match a line against an anchored `^<marker>(.+)$` pattern, returning the
captured group. Lines never contain a newline, so Go's `.` restriction is
vacuous here. -/
def matchTag (marker : List Char) (l : Line) : Option Line :=
  if l.take marker.length = marker ∧ marker.length < l.length then
    some (l.drop marker.length)
  else none

/-- `beginSectionRx.FindStringSubmatch`: the name of a `# BEGIN <name>` line. -/
def matchBegin (l : Line) : Option Line := matchTag beginMarker l

/-- `endSectionRx.FindStringSubmatch`: the name of an `# END <name>` line. -/
def matchEnd (l : Line) : Option Line := matchTag endMarker l

/-! ## Go string comparison

Go compares strings byte-wise lexicographically; on `List Char` this is the
code-point lexicographic order (UTF-8 preserves it). `goLess a b` is Go's
`a < b`. -/

/-- Go's `<` on strings, as a boolean on character lists. -/
def goLess : List Char → List Char → Bool
  | _, [] => false
  | [], _ :: _ => true
  | a :: as, b :: bs =>
    if a < b then true
    else if b < a then false
    else goLess as bs

/-! ## Chunks and spans (`sections.go`) -/

/-- `chunk` of `sections.go`: a part of the file, either raw text or a named
section. -/
structure Chunk where
  isSection : Bool
  name : Line
  lines : List Line
deriving DecidableEq, Repr

/-- `span` of `sections.go`: a `{start, end, name}` record located during
parsing. (Go's field `end` is a Lean keyword; it is called `stop` here.) -/
structure Span where
  start : Nat
  stop : Nat
  name : Line
deriving DecidableEq, Repr

/-- `findEndTag`'s scanning loop over a suffix of the line list: the relative
index of the first `# END <name>` line, stopping (with no result) at a nested
`# BEGIN <name>` line. -/
def findEndTagFrom : List Line → Line → Option Nat
  | [], _ => none
  | l :: rest, name =>
    if matchEnd l = some name then some 0
    else if matchBegin l = some name then none
    else (findEndTagFrom rest name).map (· + 1)

/-- `findEndTag` of `sections.go`: look ahead from absolute index `startIdx`
for the matching END tag; stop at a nested BEGIN tag of the same name. -/
def findEndTag (lines : List Line) (startIdx : Nat) (name : Line) : Option Nat :=
  (findEndTagFrom (lines.drop startIdx) name).map (startIdx + ·)

/-- The scanning loop of `findValidSections`, with an explicit fuel argument
standing in for the Go `for` loop (each iteration advances the index by at
least one, so `lines.length` fuel always suffices; the fuel-exhaustion branch
is unreachable in `findValidSections` below). -/
def findValidSectionsAux (lines : List Line) (targetName : Line) :
    Nat → Nat → Except String (List Span)
  | _, 0 => .ok []
  | i, fuel + 1 =>
    if h : i < lines.length then
      match matchBegin lines[i] with
      | none =>
        match matchEnd lines[i] with
        | some n =>
          if n = targetName then
            .error "found orphaned closing tag for target section"
          else findValidSectionsAux lines targetName (i + 1) fuel
        | none => findValidSectionsAux lines targetName (i + 1) fuel
      | some name =>
        match findEndTag lines (i + 1) name with
        | some endIdx =>
          match findValidSectionsAux lines targetName (endIdx + 1) fuel with
          | .error e => .error e
          | .ok rest => .ok (⟨i, endIdx, name⟩ :: rest)
        | none =>
          if name = targetName then
            .error "found opening tag for target section but no closing tag"
          else findValidSectionsAux lines targetName (i + 1) fuel
    else .ok []

/-- `findValidSections` of `sections.go`: scan all lines for valid BEGIN/END
pairs; malformed tags of the target section are a hard error, malformed tags
of other sections are tolerated as raw text. -/
def findValidSections (lines : List Line) (targetName : Line) :
    Except String (List Span) :=
  findValidSectionsAux lines targetName 0 lines.length

/-- The block-building loop of `parseBlocks`: raw text between/around the
validated spans becomes raw chunks, each span becomes a section chunk. -/
def buildBlocks (lines : List Line) : List Span → Nat → List Chunk
  | [], lineIdx =>
    if lineIdx < lines.length then [⟨false, [], lines.drop lineIdx⟩] else []
  | sec :: rest, lineIdx =>
    (if lineIdx < sec.start then
      [Chunk.mk false [] ((lines.drop lineIdx).take (sec.start - lineIdx))]
    else []) ++
    Chunk.mk true sec.name ((lines.drop sec.start).take (sec.stop + 1 - sec.start)) ::
      buildBlocks lines rest (sec.stop + 1)

/-- `parseBlocks` of `sections.go`. -/
def parseBlocks (lines : List Line) (targetSectionName : Line) :
    Except String (List Chunk) :=
  match findValidSections lines targetSectionName with
  | .error e => .error e
  | .ok validSections => .ok (buildBlocks lines validSections 0)

/-- `wrapSection` of `sections.go`: wrap body lines in BEGIN/END marker lines. -/
def wrapSection (lines : List Line) (name : Line) : List Line :=
  (beginMarker ++ name) :: lines ++ [endMarker ++ name]

/-- Chunks that survive after the new section has been placed: later copies of
the same-named section are skipped (the `inserted` branch of `mergeBlocks`). -/
def dropTargetSections (sectionName : Line) (blocks : List Chunk) : List Chunk :=
  blocks.filter (fun b => !(b.isSection && b.name == sectionName))

/-- `mergeBlocks` of `sections.go`: replace the section in place, or insert it
before the first section whose name sorts after it, or append at the end. -/
def mergeBlocks : List Chunk → Chunk → Line → List Chunk
  | [], newChunk, _ => [newChunk]
  | b :: rest, newChunk, sectionName =>
    if b.isSection && b.name == sectionName then
      newChunk :: dropTargetSections sectionName rest
    else if b.isSection && goLess sectionName b.name then
      newChunk :: b :: dropTargetSections sectionName rest
    else
      b :: mergeBlocks rest newChunk sectionName

/-- Concatenation of all chunk lines (helper for `serializeBlocks` proofs). -/
def chunkJoin : List Chunk → List Line
  | [] => []
  | b :: bs => b.lines ++ chunkJoin bs

/-- `serializeBlocks` of `sections.go`: each line of each chunk, each followed
by a newline. -/
def serializeBlocks : List Chunk → List Char
  | [] => []
  | b :: bs => serializeLines b.lines ++ serializeBlocks bs

/-- `computeMergedContent` of `sections.go`. -/
def computeMergedContent (oldContent : List Char) (srcLines : List Line)
    (sectionName : Line) : Except String (List Char × Bool) :=
  match parseBlocks (splitLines oldContent) sectionName with
  | .error e => .error e
  | .ok blocks =>
    let newChunk : Chunk := ⟨true, sectionName, wrapSection srcLines sectionName⟩
    let newBytes := serializeBlocks (mergeBlocks blocks newChunk sectionName)
    .ok (newBytes, !(newBytes == oldContent))

/-- The effect of `mergeSection` (`sections.go` lines 59-82) on the target
file's bytes: on a parse error nothing is written and the old bytes survive;
on success the new bytes are written only when they changed. Returns the file
content after the call, the `changed` flag, and whether an error was
returned. -/
def mergeSectionWrite (oldContent : List Char) (srcLines : List Line)
    (sectionName : Line) : List Char × Bool × Bool :=
  match computeMergedContent oldContent srcLines sectionName with
  | .error _ => (oldContent, false, true)
  | .ok (newBytes, changed) =>
    ((if changed then newBytes else oldContent), changed, false)

/-- The content/changed result of `removeSection` (`sections.go`) on an
existing target file: parse, drop every chunk that is the named section,
rewrite only when one was found. -/
def removeSection (oldContent : List Char) (sectionName : Line) :
    Except String (List Char × Bool) :=
  match parseBlocks (splitLines oldContent) sectionName with
  | .error e => .error e
  | .ok blocks =>
    let newBlocks := blocks.filter (fun b => !(b.isSection && b.name == sectionName))
    let found := blocks.any (fun b => b.isSection && b.name == sectionName)
    if found then .ok (serializeBlocks newBlocks, true) else .ok (oldContent, false)

/-- `removeSection` including the missing-target-file path (`os.IsNotExist`
returns `(false, nil)` without touching anything). -/
def removeSectionAt (file : Option (List Char)) (sectionName : Line) :
    Except String (Option (List Char) × Bool) :=
  match file with
  | none => .ok (none, false)
  | some old =>
    match removeSection old sectionName with
    | .error e => .error e
    | .ok (c, ch) => .ok (some c, ch)

/-! ## Permissions (`sys_unix.go`: `calculatePerms`) -/

/-- The complement of a umask within the nine permission bits. -/
def permComplement (umask : Nat) : Nat := 0o777 ^^^ (umask &&& 0o777)

/-- `calculatePerms` of `sys_unix.go`. Without `everyone`, the source
permission bits masked by the umask. With `everyone`, a base of read-for-all
(0444), write-for-all when the owner can write, exec-for-all when the owner
can exec — then masked by the umask. -/
def calculatePerms (srcMode umask : Nat) (everyone : Bool) : Nat :=
  if !everyone then
    (srcMode &&& 0o777) &&& permComplement umask
  else
    let permBits : Nat := 0o444
    let permBits := if srcMode &&& 0o200 ≠ 0 then permBits ||| 0o222 else permBits
    let permBits := if srcMode &&& 0o100 ≠ 0 then permBits ||| 0o111 else permBits
    permBits &&& permComplement umask

/-- Modelled from the spec: the "everyone" policy as the specification (and
the tool's own `-everyone` flag help) describes it — group and other receive
exactly the owner's read/write/execute bits, and the umask is applied to the
result. Used to compare the code's `calculatePerms` against the spec's words. -/
def specEveryonePerms (srcMode umask : Nat) : Nat :=
  let owner := srcMode &&& 0o700
  (owner ||| (owner >>> 3) ||| (owner >>> 6)) &&& permComplement umask

/-! ## File states and the write protocol (`fileutils.go`: `syncFile`) -/

/-- The observable state of one regular file: its bytes, its permission bits,
and its modification time. -/
structure FState where
  content : List Char
  mode : Nat
  mtime : Int
deriving DecidableEq, Repr

/-- `contentsEqual` of `fileutils.go`: byte-by-byte comparison. -/
def contentsEqual (a b : List Char) : Bool := a == b

/-- The effect of `syncFile src dst perm` on the destination file. A missing
destination is created empty (`O_CREATE`). If the sizes match and the bytes
compare equal, the copy is skipped entirely (no truncate, no write);
otherwise the destination is truncated and the source bytes are copied.
In both cases the permission bits are chmod'ed to `perm` and the mtime is set
to the source's. Returns the resulting destination state and whether the
content was (re)written. -/
def syncFile (src : FState) (dst : Option FState) (perm : Nat) :
    FState × Bool :=
  let d0 : FState :=
    match dst with
    | some d => d
    | none => { content := [], mode := perm, mtime := 0 }
  let sameContent : Bool :=
    (d0.content.length == src.content.length) && contentsEqual src.content d0.content
  let newContent := if sameContent then d0.content else src.content
  ({ content := newContent, mode := perm, mtime := src.mtime }, !sameContent)

/-- `handleNewerDestination` of `syncer.go`: when the (symlink-resolved,
regular) destination is strictly newer than the source, either collect it
back into the source file — reusing `syncFile` with the roles swapped and
`srcInfo.Mode()` as the enforced permissions — or skip, or (with force) fall
through to the normal overwrite. Returns the updated source file when a
collect happened, and the `done` flag. -/
def handleNewerDestination (src : FState) (dst : Option FState)
    (dstRegular collect force : Bool) : Option FState × Bool :=
  match dst with
  | none => (none, false)
  | some d =>
    if !dstRegular then (none, false)
    else if src.mtime < d.mtime then
      if collect then (some (syncFile d (some src) src.mode).1, true)
      else if !force then (none, true)
      else (none, false)
    else (none, false)

/-- The permission handling of `mergeSection` (`sections.go` lines 44-82):
expected permissions are computed from the *source* section file's mode and
chmod'ed unconditionally; the state of the destination (whether it exists,
and its current mode) enters the computation nowhere. The destination
parameters are carried so that this independence can be stated. Returns the
resulting file content, the `changed` flag, and the mode enforced on the
destination file. -/
def mergeSectionModel (dstExists : Bool) (dstMode : Nat) (oldContent : List Char)
    (srcLines : List Line) (sectionName : Line) (srcMode umask : Nat)
    (everyone : Bool) : Except String (List Char × Bool × Nat) :=
  let expectedPerms := calculatePerms srcMode umask everyone
  match computeMergedContent oldContent srcLines sectionName with
  | .error e => .error e
  | .ok (newBytes, changed) =>
    .ok ((if changed then newBytes else oldContent), changed, expectedPerms)

/-! ## State store (`state.go`: `loadState`, `saveState`) -/

/-- Go's `unicode.IsSpace` (the White_Space property), used by
`strings.TrimSpace`. -/
def isGoSpace (c : Char) : Bool :=
  c = ' ' || c = '\t' || c = '\n' || c.toNat = 0x0B || c.toNat = 0x0C ||
  c = '\r' || c.toNat = 0x85 || c.toNat = 0xA0 || c.toNat = 0x1680 ||
  (0x2000 ≤ c.toNat && c.toNat ≤ 0x200A) || c.toNat = 0x2028 ||
  c.toNat = 0x2029 || c.toNat = 0x202F || c.toNat = 0x205F || c.toNat = 0x3000

/-- `strings.TrimSpace`: drop leading and trailing white space. -/
def trimSpace (l : Line) : Line :=
  ((l.dropWhile isGoSpace).reverse.dropWhile isGoSpace).reverse

/-- `bufio.ScanLines` drops one terminal carriage return from each line. -/
def dropCR (l : Line) : Line :=
  if l.getLast? = some '\r' then l.dropLast else l

/-- `loadState` of `state.go`: scan lines (the scanner never yields the empty
token after a terminating final newline, matching `splitLines`), trim white
space, keep the non-empty results. The resulting list represents the loaded
set; only membership in it is meaningful. -/
def loadState (content : List Char) : List Line :=
  ((splitLines content).map (fun l => trimSpace (dropCR l))).filter (fun l => l ≠ [])

/-- The insertion step of sorting the keys ascending (`sort.Strings`). -/
def insertSorted (x : Line) : List Line → List Line
  | [] => [x]
  | y :: ys => if goLess x y then x :: y :: ys else y :: insertSorted x ys

/-- `sort.Strings` on the key list: sort ascending by Go string comparison. -/
def sortStrings (keys : List Line) : List Line :=
  keys.foldr insertSorted []

/-- `saveState` of `state.go`: the bytes written to the (truncated) state
file — the keys of the tracked set, sorted ascending, one per line with a
trailing newline each. -/
def saveState (keys : List Line) : List Char :=
  serializeLines (sortStrings keys)

/-- `syncIteration` (main file, lines 336-344): the state file is rewritten
with the new state only when the pass's `changed` flag is set; otherwise the
previously persisted bytes survive untouched. -/
def persistedState (changed : Bool) (oldPersisted newState : List Line) : List Line :=
  if changed then newState else oldPersisted

/-- `prune`'s handling of one orphaned section path (`syncer.go` lines
310-331): an error leaves `changed` alone and raises the error flag; a
successful removal with `chg = true` sets `changed`; `(false, nil)` leaves
both flags alone. Returns (file after, changed flag after, error flag after). -/
def pruneOrphanSection (file : Option (List Char)) (sectionName : Line)
    (changed hasErrors : Bool) : Option (List Char) × Bool × Bool :=
  match removeSectionAt file sectionName with
  | .error _ => (file, changed, true)
  | .ok (f', chg) => (f', changed || chg, hasErrors)

/-! ## Derived definitions used by the proofs -/

/-- Well-formedness of a span list relative to a line list: spans lie within
bounds, are ordered, and do not overlap (each starts after the previous one
ends). `findValidSections` only ever produces such lists. -/
def spansWF (lines : List Line) : Nat → List Span → Prop
  | _, [] => True
  | lo, s :: rest =>
    lo ≤ s.start ∧ s.start ≤ s.stop ∧ s.stop < lines.length ∧
    spansWF lines (s.stop + 1) rest

/-- Join lines with single newline separators (no trailing newline); the
left inverse of `splitOnNl`. -/
def joinNl : List Line → List Char
  | [] => []
  | [l] => l
  | l :: l2 :: ls => l ++ '\n' :: joinNl (l2 :: ls)

/-- The spans that the scanner reports for a list of well-formed section
chunks laid out consecutively from line index `i`. -/
def spansOf : List Chunk → Nat → List Span
  | [], _ => []
  | c :: rest, i =>
    ⟨i, i + c.lines.length - 1, c.name⟩ :: spansOf rest (i + c.lines.length)

/-- A chunk produced by merging a section whose body contains no marker
lines: a section chunk with a usable name whose lines are exactly the
wrapped body. Such chunks re-parse to themselves. -/
def IsCleanChunk (c : Chunk) : Prop :=
  c.isSection = true ∧ c.name ≠ [] ∧ '\n' ∉ c.name ∧
  ∃ body, (∀ l ∈ body, matchBegin l = none ∧ matchEnd l = none ∧ '\n' ∉ l) ∧
    c.lines = wrapSection body c.name

/-- The target file's content after one `mergeSection` call (unchanged on
error). -/
def mergeApply (content : List Char) (body : List Line) (name : Line) : List Char :=
  (mergeSectionWrite content body name).1

/-- The target file's content after a sequence of `mergeSection` calls. -/
def applyMerges (content : List Char) : List (Line × List Line) → List Char
  | [] => content
  | m :: rest => applyMerges (mergeApply content m.2 m.1) rest

/-! ## Support lemmas: line splitting and serialization -/

theorem splitOnNl_ne_nil (b : List Char) : splitOnNl b ≠ [] := by
  induction b with
  | nil => simp [splitOnNl]
  | cons c rest ih =>
    unfold splitOnNl
    by_cases h : c = '\n'
    · simp [h]
    · simp only [h, if_false]
      cases splitOnNl rest <;> simp

theorem splitOnNl_cons_line (l : Line) (b : List Char) (hl : '\n' ∉ l)
    (p : Line) (ps : List Line) (hb : splitOnNl b = p :: ps) :
    splitOnNl (l ++ b) = (l ++ p) :: ps := by
  induction l with
  | nil => simpa using hb
  | cons c cs ih =>
    have hc : ¬(c = '\n') := fun h => hl (h ▸ List.mem_cons_self c cs)
    have hcs : '\n' ∉ cs := fun h => hl (List.mem_cons_of_mem c h)
    show splitOnNl (c :: (cs ++ b)) = _
    unfold splitOnNl
    rw [if_neg hc, ih hcs]
    rfl

theorem splitOnNl_serializeLines (ls : List Line) (h : ∀ l ∈ ls, '\n' ∉ l) :
    splitOnNl (serializeLines ls) = ls ++ [[]] := by
  induction ls with
  | nil => rfl
  | cons l ls ih =>
    have h1 : '\n' ∉ l := h l (List.mem_cons_self l ls)
    have h2 : ∀ x ∈ ls, '\n' ∉ x := fun x hx => h x (List.mem_cons_of_mem l hx)
    have hb : splitOnNl ('\n' :: serializeLines ls) =
        [] :: splitOnNl (serializeLines ls) := by
      simp [splitOnNl]
    show splitOnNl (l ++ '\n' :: serializeLines ls) = _
    rw [splitOnNl_cons_line l _ h1 [] (splitOnNl (serializeLines ls)) hb, ih h2]
    simp

theorem splitLines_serializeLines (ls : List Line) (h : ∀ l ∈ ls, '\n' ∉ l) :
    splitLines (serializeLines ls) = ls := by
  unfold splitLines
  rw [splitOnNl_serializeLines ls h]
  simp

theorem serializeLines_append (a b : List Line) :
    serializeLines (a ++ b) = serializeLines a ++ serializeLines b := by
  induction a with
  | nil => rfl
  | cons l ls ih => simp [serializeLines, ih]

theorem serializeBlocks_eq_chunkJoin (bs : List Chunk) :
    serializeBlocks bs = serializeLines (chunkJoin bs) := by
  induction bs with
  | nil => rfl
  | cons b bs ih => simp [serializeBlocks, chunkJoin, serializeLines_append, ih]

theorem serializeLines_getLast? (ls : List Line) :
    serializeLines ls = [] ∨ (serializeLines ls).getLast? = some '\n' := by
  induction ls with
  | nil => left; rfl
  | cons l ls ih =>
    right
    have h2 : ('\n' :: serializeLines ls).getLast? = some '\n' := by
      rw [show ('\n' :: serializeLines ls) = ['\n'] ++ serializeLines ls from rfl,
        List.getLast?_append]
      rcases ih with h | h
      · rw [h]; rfl
      · rw [h]; rfl
    show (l ++ '\n' :: serializeLines ls).getLast? = some '\n'
    rw [List.getLast?_append, h2]
    rfl

/-! ## Support lemmas: the Go string order -/

theorem goLess_irrefl (a : List Char) : goLess a a = false := by
  induction a with
  | nil => rfl
  | cons c cs ih => simp [goLess, ih]

theorem goLess_trichotomy (a b : List Char) :
    goLess a b = true ∨ a = b ∨ goLess b a = true := by
  induction a generalizing b with
  | nil =>
    cases b with
    | nil => right; left; rfl
    | cons d ds => left; rfl
  | cons c cs ih =>
    cases b with
    | nil => right; right; rfl
    | cons d ds =>
      rcases lt_trichotomy c d with h | h | h
      · left; simp [goLess, h]
      · subst h
        rcases ih ds with h2 | h2 | h2
        · left; simp [goLess, h2]
        · right; left; rw [h2]
        · right; right; simp [goLess, h2]
      · right; right; simp [goLess, h]

theorem goLess_asymm {a b : List Char} (h : goLess a b = true) :
    goLess b a = false := by
  induction a generalizing b with
  | nil =>
    cases b with
    | nil => simp [goLess] at h
    | cons d ds => rfl
  | cons c cs ih =>
    cases b with
    | nil => simp [goLess] at h
    | cons d ds =>
      by_cases h1 : c < d
      · have h2 : ¬(d < c) := lt_asymm h1
        simp [goLess, h1, h2]
      · by_cases h2 : d < c
        · simp [goLess, h1, h2] at h
        · simp [goLess, h1, h2] at h ⊢
          exact ih h

theorem goLess_trans {a b c : List Char} (h1 : goLess a b = true)
    (h2 : goLess b c = true) : goLess a c = true := by
  induction a generalizing b c with
  | nil =>
    cases c with
    | nil =>
      cases b with
      | nil => simp [goLess] at h1
      | cons y ys => simp [goLess] at h2
    | cons z zs => rfl
  | cons x xs ih =>
    cases b with
    | nil => simp [goLess] at h1
    | cons y ys =>
      cases c with
      | nil => simp [goLess] at h2
      | cons z zs =>
        by_cases hxy : x < y
        · by_cases hyz : y < z
          · simp [goLess, lt_trans hxy hyz]
          · by_cases hzy : z < y
            · simp [goLess, hyz, hzy] at h2
            · have : y = z := le_antisymm (not_lt.mp hzy) (not_lt.mp hyz)
              subst this
              simp [goLess, hxy]
        · by_cases hyx : y < x
          · simp [goLess, hxy, hyx] at h1
          · have : x = y := le_antisymm (not_lt.mp hyx) (not_lt.mp hxy)
            subst this
            simp only [goLess, lt_irrefl, if_false] at h1
            by_cases hxz : x < z
            · simp [goLess, hxz]
            · by_cases hzx : z < x
              · simp [goLess, hxz, hzx] at h2
              · have : x = z := le_antisymm (not_lt.mp hzx) (not_lt.mp hxz)
                subst this
                simp only [goLess, lt_irrefl, if_false] at h2 ⊢
                exact ih h1 h2

theorem goLess_eq_of_both_false {a b : List Char} (h1 : goLess a b = false)
    (h2 : goLess b a = false) : a = b := by
  rcases goLess_trichotomy a b with h | h | h
  · rw [h1] at h; cases h
  · exact h
  · rw [h2] at h; cases h

/-! ## Support lemmas: insertion sort (`sort.Strings`) -/

theorem mem_insertSorted {x y : Line} {l : List Line} :
    y ∈ insertSorted x l ↔ y = x ∨ y ∈ l := by
  induction l with
  | nil => simp [insertSorted]
  | cons z zs ih =>
    unfold insertSorted
    by_cases h : goLess x z = true
    · simp only [if_pos h, List.mem_cons]
      try tauto
    · simp only [if_neg h, List.mem_cons, ih]
      try tauto

theorem insertSorted_perm (x : Line) (l : List Line) :
    (insertSorted x l).Perm (x :: l) := by
  induction l with
  | nil => exact List.Perm.refl _
  | cons z zs ih =>
    unfold insertSorted
    by_cases h : goLess x z = true
    · rw [if_pos h]
    · rw [if_neg h]
      exact (ih.cons z).trans (List.Perm.swap x z zs)

theorem sortStrings_perm (l : List Line) : (sortStrings l).Perm l := by
  induction l with
  | nil => exact List.Perm.refl _
  | cons x xs ih =>
    exact (insertSorted_perm x (sortStrings xs)).trans (ih.cons x)

theorem insertSorted_pairwise {x : Line} {l : List Line}
    (h : l.Pairwise (fun a b => goLess b a = false)) :
    (insertSorted x l).Pairwise (fun a b => goLess b a = false) := by
  induction l with
  | nil => simp [insertSorted]
  | cons z zs ih =>
    rcases List.pairwise_cons.mp h with ⟨hz, hzs⟩
    unfold insertSorted
    by_cases hx : goLess x z = true
    · rw [if_pos hx]
      refine List.pairwise_cons.mpr ⟨?_, h⟩
      intro y hy
      rcases List.mem_cons.mp hy with rfl | hy2
      · exact goLess_asymm hx
      · have h1 := hz y hy2
        cases hyx : goLess y x with
        | false => rfl
        | true => rw [goLess_trans hyx hx] at h1; cases h1
    · rw [if_neg hx]
      refine List.pairwise_cons.mpr ⟨?_, ih hzs⟩
      intro y hy
      rcases mem_insertSorted.mp hy with rfl | hy2
      · exact Bool.eq_false_iff.mpr hx
      · exact hz y hy2

theorem sortStrings_pairwise (l : List Line) :
    (sortStrings l).Pairwise (fun a b => goLess b a = false) := by
  induction l with
  | nil => simp [sortStrings]
  | cons x xs ih => exact insertSorted_pairwise ih

theorem sortStrings_pairwise_lt (l : List Line) (hnd : l.Nodup) :
    (sortStrings l).Pairwise (fun a b => goLess a b = true) := by
  have hp := sortStrings_pairwise l
  have hnd2 : (sortStrings l).Nodup := ((sortStrings_perm l).nodup_iff).mpr hnd
  have hand := List.Pairwise.and hp hnd2
  refine hand.imp ?_
  rintro a b ⟨h1, h2⟩
  rcases goLess_trichotomy a b with h | h | h
  · exact h
  · exact absurd h h2
  · rw [h] at h1; cases h1

theorem serializeLines_eq_nil {ls : List Line} :
    serializeLines ls = [] ↔ ls = [] := by
  cases ls with
  | nil => simp [serializeLines]
  | cons l rest => simp [serializeLines]

theorem mem_mergeBlocks_self (blocks : List Chunk) (newChunk : Chunk) (t : Line) :
    newChunk ∈ mergeBlocks blocks newChunk t := by
  induction blocks with
  | nil => exact List.mem_singleton.mpr rfl
  | cons b rest ih =>
    unfold mergeBlocks
    split
    · exact List.mem_cons_self _ _
    · split
      · exact List.mem_cons_self _ _
      · exact List.mem_cons_of_mem _ ih

theorem chunkJoin_ne_nil_of_mem {bs : List Chunk} {c : Chunk} (hc : c ∈ bs)
    (hne : c.lines ≠ []) : chunkJoin bs ≠ [] := by
  induction bs with
  | nil => cases hc
  | cons b rest ih =>
    rcases List.mem_cons.mp hc with rfl | h2
    · show c.lines ++ chunkJoin rest ≠ []
      intro hx
      exact hne (List.append_eq_nil.mp hx).1
    · show b.lines ++ chunkJoin rest ≠ []
      intro hx
      exact ih h2 (List.append_eq_nil.mp hx).2

theorem map_eq_self_of_fix {α : Type} {f : α → α} {l : List α}
    (h : ∀ p ∈ l, f p = p) : l.map f = l := by
  induction l with
  | nil => rfl
  | cons a l ih =>
    simp [h a (List.mem_cons_self a l), ih (fun p hp => h p (List.mem_cons_of_mem a hp))]

/-! ## Claims about permissions and the write protocol -/

/-- Decidable equality for `Except`, so concrete runs of the fallible
functions can be checked by `decide`. -/
instance {α β : Type} [DecidableEq α] [DecidableEq β] : DecidableEq (Except α β) :=
  fun a b =>
    match a, b with
    | .ok x, .ok y =>
      if h : x = y then .isTrue (by rw [h]) else .isFalse (by simp [h])
    | .error x, .error y =>
      if h : x = y then .isTrue (by rw [h]) else .isFalse (by simp [h])
    | .ok _, .error _ => .isFalse (by simp)
    | .error _, .ok _ => .isFalse (by simp)

/-- C4: whenever collect mode is enabled and the regular destination file is
strictly newer than the source, `handleNewerDestination` reverses the
transfer: the source file receives the destination's content and the
destination's mtime, but keeps its own original permission bits — the
destination's mode is not applied to the source. -/
theorem collect_reverses_transfer_preserving_source_mode
    (src d : FState) (force : Bool) (hnewer : src.mtime < d.mtime) :
    handleNewerDestination src (some d) true true force =
      (some { content := d.content, mode := src.mode, mtime := d.mtime }, true) := by
  unfold handleNewerDestination syncFile contentsEqual
  simp only [Bool.not_true, Bool.false_eq_true, if_false, if_pos hnewer, if_pos rfl]
  by_cases hc : d.content = src.content
  · simp [hc]
  · have hb : (d.content == src.content) = false := beq_eq_false_iff_ne.mpr hc
    simp [hb]

/-- Witness for C4 at a concrete input. -/
theorem collect_reverses_transfer_preserving_source_mode_witness :
    handleNewerDestination ⟨"old".data, 0o600, 10⟩ (some ⟨"new".data, 0o666, 20⟩)
        true true false =
      (some ⟨"new".data, 0o600, 20⟩, true) :=
  collect_reverses_transfer_preserving_source_mode
    ⟨"old".data, 0o600, 10⟩ ⟨"new".data, 0o666, 20⟩ false (by decide)

/-- C10: when the destination already exists with byte-identical content, the
write protocol does not truncate or rewrite it (the written-flag is `false`),
but still applies the computed permission bits and sets the destination's
mtime to the source's. -/
theorem syncFile_identical_content_skips_write (src d : FState) (perm : Nat)
    (h : d.content = src.content) :
    syncFile src (some d) perm =
      ({ content := d.content, mode := perm, mtime := src.mtime }, false) := by
  unfold syncFile contentsEqual
  simp [h]

/-- Witness for C10 at a concrete input. -/
theorem syncFile_identical_content_skips_write_witness :
    syncFile ⟨"hi".data, 0o644, 7⟩ (some ⟨"hi".data, 0o600, 3⟩) 0o644 =
      (⟨"hi".data, 0o644, 7⟩, false) :=
  syncFile_identical_content_skips_write
    ⟨"hi".data, 0o644, 7⟩ ⟨"hi".data, 0o600, 3⟩ 0o644 (by decide)

/-- C5 counterexample: merging onto an *existing* destination (mode `0o600`)
with a source section file of mode `0o755` and umask `0o022` enforces
`0o755` — derived from the source mode — and not `0o600 & ^umask = 0o600` as
the claim states. -/
theorem mergeSection_perms_ignore_destination_mode :
    mergeSectionModel true 0o600 [] ["x".data] "a".data 0o755 0o022 false =
      .ok ("# BEGIN a\nx\n# END a\n".data, true, 0o755) ∧
    (0o755 : Nat) ≠ 0o600 &&& permComplement 0o022 := by decide

/-- C5 (amended): the permission bits enforced by `mergeSection` are always
`calculatePerms` of the *source* section file's mode; whether the destination
exists, and its current mode, enter the result nowhere. -/
theorem mergeSection_perms_from_source
    (dstExists dstExists' : Bool) (dstMode dstMode' : Nat) (old : List Char)
    (src : List Line) (name : Line) (srcMode umask : Nat) (everyone : Bool)
    (c : List Char) (ch : Bool) (m : Nat)
    (h : mergeSectionModel dstExists dstMode old src name srcMode umask everyone =
      .ok (c, ch, m)) :
    m = calculatePerms srcMode umask everyone ∧
    mergeSectionModel dstExists' dstMode' old src name srcMode umask everyone =
      .ok (c, ch, m) := by
  unfold mergeSectionModel at h ⊢
  cases hcc : computeMergedContent old src name with
  | error e => rw [hcc] at h; exact absurd h (by simp)
  | ok v =>
    rw [hcc] at h
    obtain ⟨v1, v2⟩ := v
    simp only [Except.ok.injEq, Prod.mk.injEq] at h
    refine ⟨h.2.2.symm, ?_⟩
    simp [← h.1, ← h.2.1, ← h.2.2]

/-- Witness for the amended C5 at a concrete input. -/
theorem mergeSection_perms_from_source_witness :
    (0o755 : Nat) = calculatePerms 0o755 0o022 false ∧
    mergeSectionModel false 0o400 [] ["x".data] "a".data 0o755 0o022 false =
      .ok ("# BEGIN a\nx\n# END a\n".data, true, 0o755) :=
  mergeSection_perms_from_source true false 0o600 0o400 [] ["x".data] "a".data
    0o755 0o022 false _ _ _ (by decide)

/-- C6: the code's `calculatePerms` with `everyone = true` always grants read
to everyone (base `0o444`), even when the owner's read bit is clear; the
documented "mirror the owner bits" policy (`specEveryonePerms`) would give no
read bits for an owner-write-only source mode. At `srcMode = 0o200`,
`umask = 0`, the code yields `0o666` while the documented policy yields
`0o222`. -/
theorem calculatePerms_everyone_grants_unconditional_read :
    calculatePerms 0o200 0 true = 0o666 ∧
    specEveryonePerms 0o200 0 = 0o222 ∧
    calculatePerms 0o200 0 true ≠ specEveryonePerms 0o200 0 := by decide

/-- C8: if an orphaned section's block is already absent from the (parseable)
target file, `removeSection` reports `(false, nil)`, the prune step leaves
the `changed` flag `false`, and with `changed = false` the persisted state is
not rewritten, so the orphaned path stays in the persisted tracked set. -/
theorem removeSection_absent_keeps_state
    (old : List Char) (name : Line) (blocks : List Chunk)
    (hparse : parseBlocks (splitLines old) name = .ok blocks)
    (habsent : ∀ b ∈ blocks, b.isSection = true → b.name ≠ name)
    (hasErrors : Bool) (oldPersisted newState : List Line) (p : Line)
    (hp : p ∈ oldPersisted) :
    removeSection old name = .ok (old, false) ∧
    pruneOrphanSection (some old) name false hasErrors = (some old, false, hasErrors) ∧
    persistedState false oldPersisted newState = oldPersisted ∧
    p ∈ persistedState false oldPersisted newState := by
  have hfound : (blocks.any fun b => b.isSection && b.name == name) = false := by
    rw [List.any_eq_false]
    intro b hb
    cases hs : b.isSection with
    | false => simp
    | true =>
      have hne : b.name ≠ name := habsent b hb hs
      simp [hne]
  have hrm : removeSection old name = .ok (old, false) := by
    unfold removeSection
    rw [hparse]
    simp [hfound]
  refine ⟨hrm, ?_, rfl, by simpa [persistedState] using hp⟩
  simp [pruneOrphanSection, removeSectionAt, hrm]

/-- Witness for C8 at a concrete input. -/
theorem removeSection_absent_keeps_state_witness :
    removeSection "hello\n".data "t".data = .ok ("hello\n".data, false) ∧
    pruneOrphanSection (some "hello\n".data) "t".data false false =
      (some "hello\n".data, false, false) ∧
    persistedState false ["etc/motd.t-section".data] [] = ["etc/motd.t-section".data] ∧
    "etc/motd.t-section".data ∈ persistedState false ["etc/motd.t-section".data] [] :=
  removeSection_absent_keeps_state "hello\n".data "t".data
    [⟨false, [], ["hello".data]⟩] (by decide) (by decide) false
    ["etc/motd.t-section".data] [] "etc/motd.t-section".data (by decide)


/-! ## Support lemmas: the tag scanner -/

theorem beginMarker_take_ne_endMarker :
    ¬(beginMarker.take endMarker.length = endMarker) := by decide

theorem matchBegin_matchEnd_disjoint {l a b : Line}
    (h1 : matchBegin l = some a) (h2 : matchEnd l = some b) : False := by
  unfold matchBegin matchTag at h1
  unfold matchEnd matchTag at h2
  by_cases c1 : l.take beginMarker.length = beginMarker ∧ beginMarker.length < l.length
  · by_cases c2 : l.take endMarker.length = endMarker ∧ endMarker.length < l.length
    · refine beginMarker_take_ne_endMarker ?_
      rw [← c1.1, List.take_take,
        show min endMarker.length beginMarker.length = endMarker.length from by decide,
        c2.1]
    · rw [if_neg c2] at h2; cases h2
  · rw [if_neg c1] at h1; cases h1

theorem findEndTagFrom_some {ls : List Line} {name : Line} {k : Nat}
    (h : findEndTagFrom ls name = some k) :
    k < ls.length ∧ matchEnd (ls.getD k []) = some name ∧
    ∀ m, m < k → matchEnd (ls.getD m []) ≠ some name ∧
      matchBegin (ls.getD m []) ≠ some name := by
  induction ls generalizing k with
  | nil => cases h
  | cons l rest ih =>
    unfold findEndTagFrom at h
    by_cases h1 : matchEnd l = some name
    · rw [if_pos h1] at h
      injection h with h
      subst h
      exact ⟨Nat.succ_pos _, by simpa using h1,
        fun m hm => absurd hm (Nat.not_lt_zero m)⟩
    · rw [if_neg h1] at h
      by_cases h2 : matchBegin l = some name
      · rw [if_pos h2] at h; cases h
      · rw [if_neg h2] at h
        cases hr : findEndTagFrom rest name with
        | none => rw [hr] at h; cases h
        | some k0 =>
          rw [hr] at h
          simp only [Option.map_some', Option.some.injEq] at h
          subst h
          obtain ⟨hk1, hk2, hk3⟩ := ih hr
          refine ⟨by simpa using hk1, by simpa using hk2, ?_⟩
          intro m hm
          cases m with
          | zero => exact ⟨by simpa using h1, by simpa using h2⟩
          | succ m0 =>
            have := hk3 m0 (by omega)
            simpa using this

theorem getD_drop (l : List Line) (j m : Nat) (h : j + m < l.length) :
    (l.drop j).getD m [] = l.getD (j + m) [] := by
  have hm : m < (l.drop j).length := by rw [List.length_drop]; omega
  rw [List.getD_eq_getElem _ _ hm, List.getD_eq_getElem _ _ h]
  exact List.getElem_drop l

theorem except_error_of_isOk_false {α : Type} {r : Except String α}
    (h : r.isOk = false) : ∃ e, r = .error e := by
  cases r with
  | error e => exact ⟨e, rfl⟩
  | ok v => cases h

/-- If every marker line in `lines` carries the target name, any orphaned
target marker (an opening tag with no closing tag anywhere after it, or a
closing tag with no opening tag before it) makes the scan fail. -/
theorem findValidSectionsAux_orphan_error
    (lines : List Line) (t : Line)
    (hmark : ∀ l ∈ lines,
      (∀ n, matchBegin l = some n → n = t) ∧ (∀ n, matchEnd l = some n → n = t)) :
    ∀ fuel i, lines.length ≤ i + fuel →
      ((∃ k, i ≤ k ∧ k < lines.length ∧ matchBegin (lines.getD k []) = some t ∧
          ∀ j, j < lines.length → k < j → matchEnd (lines.getD j []) ≠ some t) ∨
       (∃ k, i ≤ k ∧ k < lines.length ∧ matchEnd (lines.getD k []) = some t ∧
          ∀ j, j < k → i ≤ j → matchBegin (lines.getD j []) ≠ some t)) →
      (findValidSectionsAux lines t i fuel).isOk = false := by
  intro fuel
  induction fuel with
  | zero =>
    intro i hfuel horph
    exfalso
    rcases horph with ⟨k, hik, hkl, _⟩ | ⟨k, hik, hkl, _⟩ <;> omega
  | succ fuel ih =>
    intro i hfuel horph
    by_cases hi : i < lines.length
    · have hmem : lines[i] ∈ lines := List.getElem_mem hi
      simp only [findValidSectionsAux]
      rw [dif_pos hi]
      split
      · -- matchBegin lines[i] = none
        rename_i hb
        split
        · -- matchEnd lines[i] = some n
          rename_i n hc
          have hn : n = t := (hmark _ hmem).2 n hc
          rw [if_pos hn]
          rfl
        · -- both markers absent: plain line, step to i+1
          rename_i hc
          refine ih (i + 1) (by omega) ?_
          rcases horph with ⟨k, hik, hkl, hkb, hkno⟩ | ⟨k, hik, hkl, hke, hkno⟩
          · left
            have hki : k ≠ i := by
              intro hk; subst hk
              rw [List.getD_eq_getElem _ _ hi, hb] at hkb
              cases hkb
            exact ⟨k, by omega, hkl, hkb, hkno⟩
          · right
            have hki : k ≠ i := by
              intro hk; subst hk
              rw [List.getD_eq_getElem _ _ hi, hc] at hke
              cases hke
            exact ⟨k, by omega, hkl, hke, fun j hjk hij => hkno j hjk (by omega)⟩
      · -- matchBegin lines[i] = some name
        rename_i name hb
        have hname : name = t := (hmark _ hmem).1 name hb
        subst hname
        split
        · -- a matching end tag was found: skip past the span
          rename_i endIdx he
          unfold findEndTag at he
          cases hef : findEndTagFrom (lines.drop (i + 1)) name with
          | none => rw [hef] at he; cases he
          | some k0 =>
            rw [hef] at he
            simp only [Option.map_some', Option.some.injEq] at he
            subst he
            obtain ⟨hk0len, hk0end, hk0mid⟩ := findEndTagFrom_some hef
            have hlen' : i + 1 + k0 < lines.length := by
              rw [List.length_drop] at hk0len; omega
            have hend_at : matchEnd (lines.getD (i + 1 + k0) []) = some name := by
              rw [← getD_drop lines (i + 1) k0 hlen']
              exact hk0end
            have hbegin_i : matchBegin (lines.getD i []) = some name := by
              rw [List.getD_eq_getElem _ _ hi]; exact hb
            have hinv :
                (∃ k, i + 1 + k0 + 1 ≤ k ∧ k < lines.length ∧
                    matchBegin (lines.getD k []) = some name ∧
                    ∀ j, j < lines.length → k < j →
                      matchEnd (lines.getD j []) ≠ some name) ∨
                (∃ k, i + 1 + k0 + 1 ≤ k ∧ k < lines.length ∧
                    matchEnd (lines.getD k []) = some name ∧
                    ∀ j, j < k → i + 1 + k0 + 1 ≤ j →
                      matchBegin (lines.getD j []) ≠ some name) := by
              rcases horph with ⟨k, hik, hkl, hkb, hkno⟩ | ⟨k, hik, hkl, hke, hkno⟩
              · left
                have hki : k ≠ i := by
                  intro hk; subst hk
                  exact hkno (k + 1 + k0) hlen' (by omega) hend_at
                have hknotmid : ¬(i + 1 ≤ k ∧ k < i + 1 + k0) := by
                  rintro ⟨hm1, hm2⟩
                  have hmid := (hk0mid (k - (i + 1)) (by omega)).2
                  rw [getD_drop lines (i + 1) (k - (i + 1)) (by omega)] at hmid
                  have harith : i + 1 + (k - (i + 1)) = k := by omega
                  rw [harith] at hmid
                  exact hmid hkb
                have hkne : k ≠ i + 1 + k0 := by
                  intro hk; subst hk
                  exact matchBegin_matchEnd_disjoint hkb hend_at
                exact ⟨k, by omega, hkl, hkb, hkno⟩
              · exfalso
                have hki : k ≠ i := by
                  intro hk; subst hk
                  exact matchBegin_matchEnd_disjoint hbegin_i hke
                exact hkno i (by omega) (by omega) hbegin_i
            obtain ⟨e, he2⟩ :=
              except_error_of_isOk_false (ih (i + 1 + k0 + 1) (by omega) hinv)
            simp only [he2]
            rfl
        · -- no matching end tag: hard error for the target name
          rw [if_pos rfl]
          rfl
    · exfalso
      rcases horph with ⟨k, hik, hkl, _⟩ | ⟨k, hik, hkl, _⟩ <;> omega

/-! ## Claim C9: written section content is newline-terminated -/

/-- C9: a successful `computeMergedContent` always produces
newline-terminated bytes (hence every content-changing `mergeSection` write
is); merging into an existing file whose content did not end with a newline
necessarily sets `changed` (so the file is rewritten, newline-terminated);
and every content `removeSection` writes (`changed = true`) is empty or
newline-terminated. -/
theorem merged_content_newline_terminated
    (old : List Char) (src : List Line) (t : Line) (nb : List Char) (ch : Bool)
    (hm : computeMergedContent old src t = .ok (nb, ch)) :
    nb.getLast? = some '\n' ∧
    (old.getLast? ≠ some '\n' → ch = true) ∧
    (∀ rc, removeSection old t = .ok (rc, true) →
      rc = [] ∨ rc.getLast? = some '\n') := by
  unfold computeMergedContent at hm
  cases hp : parseBlocks (splitLines old) t with
  | error e => rw [hp] at hm; cases hm
  | ok blocks =>
    rw [hp] at hm
    simp only [Except.ok.injEq, Prod.mk.injEq] at hm
    obtain ⟨hnb, hch⟩ := hm
    have hlast : nb.getLast? = some '\n' := by
      rcases serializeLines_getLast?
          (chunkJoin (mergeBlocks blocks ⟨true, t, wrapSection src t⟩ t)) with h | h
      · exfalso
        have hmem := mem_mergeBlocks_self blocks ⟨true, t, wrapSection src t⟩ t
        exact chunkJoin_ne_nil_of_mem hmem (by simp [wrapSection])
          (serializeLines_eq_nil.mp h)
      · rw [← hnb, serializeBlocks_eq_chunkJoin]
        exact h
    refine ⟨hlast, ?_, ?_⟩
    · intro hold
      have hne : nb ≠ old := fun he => hold (he ▸ hlast)
      have hb : (serializeBlocks (mergeBlocks blocks ⟨true, t, wrapSection src t⟩ t)
          == old) = false := beq_eq_false_iff_ne.mpr (by rw [hnb]; exact hne)
      rw [← hch, hb]
      rfl
    · intro rc hrc
      unfold removeSection at hrc
      rw [hp] at hrc
      by_cases hf : (blocks.any fun b => b.isSection && b.name == t) = true
      · simp only [hf, if_true, Except.ok.injEq, Prod.mk.injEq] at hrc
        rcases serializeLines_getLast?
            (chunkJoin (blocks.filter fun b => !(b.isSection && b.name == t))) with h | h
        · left
          rw [← hrc.1, serializeBlocks_eq_chunkJoin, h]
        · right
          rw [← hrc.1, serializeBlocks_eq_chunkJoin]
          exact h
      · simp [hf] at hrc

/-- Witness for C9 at a concrete input: merging into `"x"` (no final
newline). -/
theorem merged_content_newline_terminated_witness :
    ("x\n# BEGIN a\ny\n# END a\n".data).getLast? = some '\n' ∧ true = true :=
  ⟨(merged_content_newline_terminated "x".data ["y".data] "a".data
      "x\n# BEGIN a\ny\n# END a\n".data true (by decide)).1,
   (merged_content_newline_terminated "x".data ["y".data] "a".data
      "x\n# BEGIN a\ny\n# END a\n".data true (by decide)).2.1 (by decide)⟩

/-! ## Claim C7: state save/load round trip -/

/-- C7: `saveState` writes exactly the tracked paths, one per line, sorted
ascending in Go's string order, a trailing newline per entry and no blank
lines; `loadState` of those bytes yields exactly the same set; and an empty
(or absent) state file loads as the empty set. The cleanliness hypotheses are
what "relative path strings" guarantee: nonempty, no newline, no surrounding
white space, no trailing carriage return. -/
theorem saveState_loadState_roundtrip (keys : List Line) (hnd : keys.Nodup)
    (hclean : ∀ p ∈ keys,
      p ≠ [] ∧ '\n' ∉ p ∧ trimSpace p = p ∧ p.getLast? ≠ some '\r') :
    splitLines (saveState keys) = sortStrings keys ∧
    (sortStrings keys).Pairwise (fun a b => goLess a b = true) ∧
    (sortStrings keys).Perm keys ∧
    ([] : Line) ∉ splitLines (saveState keys) ∧
    (∀ p, p ∈ loadState (saveState keys) ↔ p ∈ keys) ∧
    loadState [] = [] := by
  have hmemkeys : ∀ p ∈ sortStrings keys, p ∈ keys :=
    fun p hp => (sortStrings_perm keys).mem_iff.mp hp
  have hsplit : splitLines (saveState keys) = sortStrings keys := by
    unfold saveState
    exact splitLines_serializeLines _ (fun l hl => (hclean l (hmemkeys l hl)).2.1)
  have hload : loadState (saveState keys) = sortStrings keys := by
    unfold loadState
    rw [hsplit]
    rw [map_eq_self_of_fix (fun p hp => by
      obtain ⟨h1, h2, h3, h4⟩ := hclean p (hmemkeys p hp)
      rw [dropCR, if_neg h4, h3])]
    rw [List.filter_eq_self.mpr (fun a ha => by
      simpa using (hclean a (hmemkeys a ha)).1)]
  refine ⟨hsplit, sortStrings_pairwise_lt keys hnd, sortStrings_perm keys, ?_, ?_, rfl⟩
  · rw [hsplit]
    intro hmem
    exact (hclean [] (hmemkeys [] hmem)).1 rfl
  · intro p
    rw [hload]
    exact ⟨fun h => hmemkeys p h, fun h => ((sortStrings_perm keys).mem_iff).mpr h⟩

/-- Witness for C7 at a concrete input. -/
theorem saveState_loadState_roundtrip_witness :
    splitLines (saveState ["b".data, "a".data]) = sortStrings ["b".data, "a".data] ∧
    ("a".data ∈ loadState (saveState ["b".data, "a".data]) ↔
      "a".data ∈ [("b".data : Line), "a".data]) :=
  ⟨(saveState_loadState_roundtrip ["b".data, "a".data] (by decide) (by decide)).1,
   (saveState_loadState_roundtrip ["b".data, "a".data] (by decide)
      (by decide)).2.2.2.2.1 "a".data⟩

/-! ## Claim C1: orphaned target tags abort the merge -/

/-- C1 counterexample: the target file `"# BEGIN a\n# BEGIN t\n# END a\n"`
contains a `# BEGIN t` line with no `# END t` line anywhere after it (the
claim's antecedent for a merge of section `t`), yet the merge returns no
error and rewrites the file: an orphaned opening tag of the target nested
inside a valid section of a *different* name is treated as raw text, not as
a hard error. -/
theorem mergeSection_orphan_nested_no_error :
    ("# BEGIN t".data ∈ splitLines "# BEGIN a\n# BEGIN t\n# END a\n".data) ∧
    matchBegin "# BEGIN t".data = some "t".data ∧
    (∀ l ∈ splitLines "# BEGIN a\n# BEGIN t\n# END a\n".data,
      matchEnd l ≠ some "t".data) ∧
    (mergeSectionWrite "# BEGIN a\n# BEGIN t\n# END a\n".data ["x".data]
      "t".data).2.2 = false ∧
    (mergeSectionWrite "# BEGIN a\n# BEGIN t\n# END a\n".data ["x".data]
      "t".data).1 ≠ "# BEGIN a\n# BEGIN t\n# END a\n".data := by decide

/-- C1 (amended): when every marker line of the target file carries the name
of the section being operated on, an orphaned `# BEGIN <name>` with no
`# END <name>` anywhere after it, or an `# END <name>` with no
`# BEGIN <name>` anywhere before it, makes `computeMergedContent` (hence
`mergeSection`) and `removeSection` return an error, and the target file's
bytes are left exactly as they were. (In general the error fires exactly
when the top-level scan meets the orphaned tag; a target marker nested
inside a valid section of a different name is tolerated — see the
counterexample.) -/
theorem mergeSection_orphan_error_preserves_bytes
    (old : List Char) (src : List Line) (t : Line)
    (hmark : ∀ l ∈ splitLines old,
      (∀ n, matchBegin l = some n → n = t) ∧ (∀ n, matchEnd l = some n → n = t))
    (horph :
      (∃ k, k < (splitLines old).length ∧
          matchBegin ((splitLines old).getD k []) = some t ∧
          ∀ j, j < (splitLines old).length → k < j →
            matchEnd ((splitLines old).getD j []) ≠ some t) ∨
      (∃ k, k < (splitLines old).length ∧
          matchEnd ((splitLines old).getD k []) = some t ∧
          ∀ j, j < k → matchBegin ((splitLines old).getD j []) ≠ some t)) :
    (∃ e, computeMergedContent old src t = .error e) ∧
    mergeSectionWrite old src t = (old, false, true) ∧
    (∃ e, removeSection old t = .error e) := by
  have horph' :
      (∃ k, 0 ≤ k ∧ k < (splitLines old).length ∧
          matchBegin ((splitLines old).getD k []) = some t ∧
          ∀ j, j < (splitLines old).length → k < j →
            matchEnd ((splitLines old).getD j []) ≠ some t) ∨
      (∃ k, 0 ≤ k ∧ k < (splitLines old).length ∧
          matchEnd ((splitLines old).getD k []) = some t ∧
          ∀ j, j < k → 0 ≤ j →
            matchBegin ((splitLines old).getD j []) ≠ some t) := by
    rcases horph with ⟨k, hkl, hkb, hkno⟩ | ⟨k, hkl, hke, hkno⟩
    · exact Or.inl ⟨k, Nat.zero_le k, hkl, hkb, hkno⟩
    · exact Or.inr ⟨k, Nat.zero_le k, hkl, hke, fun j hjk _ => hkno j hjk⟩
  obtain ⟨e, he⟩ := except_error_of_isOk_false
    (findValidSectionsAux_orphan_error (splitLines old) t hmark
      (splitLines old).length 0 (by omega) horph')
  have hpb : parseBlocks (splitLines old) t = .error e := by
    unfold parseBlocks findValidSections
    rw [he]
  have hcc : computeMergedContent old src t = .error e := by
    unfold computeMergedContent
    rw [hpb]
  refine ⟨⟨e, hcc⟩, ?_, ⟨e, ?_⟩⟩
  · unfold mergeSectionWrite
    rw [hcc]
  · unfold removeSection
    rw [hpb]

/-- Witness for the amended C1 at the spec's own scenario: a target file
containing `# BEGIN disks` with no matching `# END disks`. -/
theorem mergeSection_orphan_error_preserves_bytes_witness :
    mergeSectionWrite "# BEGIN disks\n".data ["y".data] "disks".data =
      ("# BEGIN disks\n".data, false, true) :=
  (mergeSection_orphan_error_preserves_bytes "# BEGIN disks\n".data ["y".data]
    "disks".data (by decide) (by decide)).2.1


/-! ## Support lemmas: spans, parsing, and byte round-trips -/

theorem spansWF_mono {lines : List Line} {i j : Nat} {spans : List Span}
    (h : spansWF lines j spans) (hij : i ≤ j) : spansWF lines i spans := by
  cases spans with
  | nil => trivial
  | cons s rest =>
    obtain ⟨h1, h2, h3, h4⟩ := h
    exact ⟨by omega, h2, h3, h4⟩

theorem findValidSectionsAux_wf (lines : List Line) (t : Line) :
    ∀ fuel i spans, findValidSectionsAux lines t i fuel = .ok spans →
      spansWF lines i spans := by
  intro fuel
  induction fuel with
  | zero =>
    intro i spans h
    injection h with h
    subst h
    trivial
  | succ fuel ih =>
    intro i spans h
    by_cases hi : i < lines.length
    · simp only [findValidSectionsAux] at h
      rw [dif_pos hi] at h
      split at h
      · split at h
        · split at h
          · cases h
          · exact spansWF_mono (ih (i + 1) spans h) (by omega)
        · exact spansWF_mono (ih (i + 1) spans h) (by omega)
      · rename_i name hb
        split at h
        · rename_i endIdx he
          split at h
          · cases h
          · rename_i rest hrest
            injection h with h
            subst h
            unfold findEndTag at he
            cases hef : findEndTagFrom (lines.drop (i + 1)) name with
            | none => rw [hef] at he; cases he
            | some k0 =>
              rw [hef] at he
              simp only [Option.map_some', Option.some.injEq] at he
              obtain ⟨hk0len, _, _⟩ := findEndTagFrom_some hef
              have hlen' : i + 1 + k0 < lines.length := by
                rw [List.length_drop] at hk0len; omega
              exact ⟨le_refl i, show i ≤ endIdx by omega,
                show endIdx < lines.length by omega, ih (endIdx + 1) rest hrest⟩
        · split at h
          · cases h
          · exact spansWF_mono (ih (i + 1) spans h) (by omega)
    · simp only [findValidSectionsAux] at h
      rw [dif_neg hi] at h
      injection h with h
      subst h
      trivial

theorem chunkJoin_append (a b : List Chunk) :
    chunkJoin (a ++ b) = chunkJoin a ++ chunkJoin b := by
  induction a with
  | nil => rfl
  | cons c cs ih => simp [chunkJoin, ih]

theorem chunkJoin_buildBlocks (lines : List Line) :
    ∀ spans i, spansWF lines i spans →
      chunkJoin (buildBlocks lines spans i) = lines.drop i := by
  intro spans
  induction spans with
  | nil =>
    intro i _
    unfold buildBlocks
    by_cases h : i < lines.length
    · rw [if_pos h]
      simp [chunkJoin]
    · rw [if_neg h]
      rw [List.drop_eq_nil_of_le (by omega)]
      rfl
  | cons s rest ih =>
    intro i hwf
    obtain ⟨h1, h2, h3, hrest⟩ := hwf
    unfold buildBlocks
    rw [chunkJoin_append]
    have hih := ih (s.stop + 1) hrest
    have e2 : (lines.drop s.start).drop (s.stop + 1 - s.start) =
        lines.drop (s.stop + 1) := by
      rw [List.drop_drop]; congr 1; omega
    by_cases hpre : i < s.start
    · rw [if_pos hpre]
      simp only [chunkJoin, List.append_nil, hih]
      have e1 : (lines.drop i).drop (s.start - i) = lines.drop s.start := by
        rw [List.drop_drop]; congr 1; omega
      calc (lines.drop i).take (s.start - i) ++
            ((lines.drop s.start).take (s.stop + 1 - s.start) ++ lines.drop (s.stop + 1))
          = (lines.drop i).take (s.start - i) ++
            ((lines.drop s.start).take (s.stop + 1 - s.start) ++
              (lines.drop s.start).drop (s.stop + 1 - s.start)) := by rw [e2]
        _ = (lines.drop i).take (s.start - i) ++ lines.drop s.start := by
              rw [List.take_append_drop]
        _ = (lines.drop i).take (s.start - i) ++ (lines.drop i).drop (s.start - i) := by
              rw [e1]
        _ = lines.drop i := List.take_append_drop _ _
    · rw [if_neg hpre]
      have his : i = s.start := by omega
      subst his
      simp only [chunkJoin, List.nil_append, hih]
      rw [← e2, List.take_append_drop]

theorem serializeBlocks_append (a b : List Chunk) :
    serializeBlocks (a ++ b) = serializeBlocks a ++ serializeBlocks b := by
  induction a with
  | nil => rfl
  | cons c cs ih => simp [serializeBlocks, ih]

theorem getLast?_cons_of_ne {α : Type} (x : α) {xs : List α} (h : xs ≠ []) :
    (x :: xs).getLast? = xs.getLast? := by
  cases xs with
  | nil => exact absurd rfl h
  | cons y ys => exact List.getLast?_cons_cons

theorem splitOnNl_eq_single_nil {b : List Char} (h : splitOnNl b = [[]]) :
    b = [] := by
  cases b with
  | nil => rfl
  | cons c rest =>
    unfold splitOnNl at h
    by_cases hc : c = '\n'
    · rw [if_pos hc] at h
      injection h with h1 h2
      exact absurd h2 (splitOnNl_ne_nil rest)
    · rw [if_neg hc] at h
      cases hr : splitOnNl rest with
      | nil => exact absurd hr (splitOnNl_ne_nil rest)
      | cons l ls =>
        rw [hr] at h
        injection h with h1 h2
        cases h1

theorem splitOnNl_getLast?_newline {b : List Char} (h : b.getLast? = some '\n') :
    (splitOnNl b).getLast? = some [] := by
  induction b with
  | nil => cases h
  | cons c rest ih =>
    by_cases hrest : rest = []
    · subst hrest
      have hc : c = '\n' := by
        simpa using h
      subst hc
      decide
    · have hlast : rest.getLast? = some '\n' := by
        rw [← getLast?_cons_of_ne c hrest]
        exact h
      have ihr := ih hlast
      unfold splitOnNl
      by_cases hc : c = '\n'
      · rw [if_pos hc]
        rw [getLast?_cons_of_ne _ (splitOnNl_ne_nil rest)]
        exact ihr
      · rw [if_neg hc]
        cases hsp : splitOnNl rest with
        | nil => exact absurd hsp (splitOnNl_ne_nil rest)
        | cons l ls =>
          cases ls with
          | nil =>
            rw [hsp] at ihr
            simp at ihr
            subst ihr
            exact absurd (splitOnNl_eq_single_nil hsp) hrest
          | cons l2 ls2 =>
            rw [hsp] at ihr
            rw [List.getLast?_cons_cons] at ihr
            rw [List.getLast?_cons_cons]
            exact ihr

theorem joinNl_splitOnNl (b : List Char) : joinNl (splitOnNl b) = b := by
  induction b with
  | nil => rfl
  | cons c rest ih =>
    unfold splitOnNl
    by_cases hc : c = '\n'
    · rw [if_pos hc]
      subst hc
      cases hsp : splitOnNl rest with
      | nil => exact absurd hsp (splitOnNl_ne_nil rest)
      | cons l ls =>
        rw [hsp] at ih
        show joinNl ([] :: l :: ls) = '\n' :: rest
        calc joinNl ([] :: l :: ls) = [] ++ '\n' :: joinNl (l :: ls) := rfl
          _ = '\n' :: rest := by rw [ih]; rfl
    · rw [if_neg hc]
      cases hsp : splitOnNl rest with
      | nil => exact absurd hsp (splitOnNl_ne_nil rest)
      | cons l ls =>
        rw [hsp] at ih
        cases ls with
        | nil =>
          have hl : l = rest := ih
          show joinNl [c :: l] = c :: rest
          rw [← hl]
          rfl
        | cons l2 ls2 =>
          show joinNl ((c :: l) :: l2 :: ls2) = c :: rest
          calc joinNl ((c :: l) :: l2 :: ls2)
              = (c :: l) ++ '\n' :: joinNl (l2 :: ls2) := rfl
            _ = c :: (l ++ '\n' :: joinNl (l2 :: ls2)) := rfl
            _ = c :: rest := by rw [show l ++ '\n' :: joinNl (l2 :: ls2) = rest from ih]

theorem joinNl_concat_nil (ls : List Line) :
    joinNl (ls ++ [[]]) = serializeLines ls := by
  induction ls with
  | nil => rfl
  | cons l rest ih =>
    cases rest with
    | nil => rfl
    | cons l2 rest2 =>
      calc joinNl ((l :: l2 :: rest2) ++ [[]])
          = l ++ '\n' :: joinNl ((l2 :: rest2) ++ [[]]) := by
            simp only [joinNl, List.cons_append]
            rfl
        _ = l ++ '\n' :: serializeLines (l2 :: rest2) := by rw [ih]
        _ = serializeLines (l :: l2 :: rest2) := rfl

theorem serializeLines_splitLines {b : List Char} (h : b.getLast? = some '\n') :
    serializeLines (splitLines b) = b := by
  have hl := splitOnNl_getLast?_newline h
  unfold splitLines
  rw [if_pos hl]
  have hne := splitOnNl_ne_nil b
  have hg : (splitOnNl b).getLast hne = [] := by
    have h2 := List.getLast?_eq_getLast (splitOnNl b) hne
    rw [hl] at h2
    injection h2 with h2
    exact h2.symm
  have hdl : (splitOnNl b).dropLast ++ [[]] = splitOnNl b := by
    conv_rhs => rw [← List.dropLast_append_getLast hne]
    rw [hg]
  calc serializeLines (splitOnNl b).dropLast
      = joinNl ((splitOnNl b).dropLast ++ [[]]) := (joinNl_concat_nil _).symm
    _ = joinNl (splitOnNl b) := by rw [hdl]
    _ = b := joinNl_splitOnNl b

theorem serializeLines_splitLines_of_terminated {b : List Char}
    (h : b = [] ∨ b.getLast? = some '\n') :
    serializeLines (splitLines b) = b := by
  rcases h with rfl | h
  · rfl
  · exact serializeLines_splitLines h


theorem dropTargetSections_eq_self {t : Line} {l : List Chunk}
    (h : ∀ c ∈ l, ¬(c.isSection = true ∧ c.name = t)) :
    dropTargetSections t l = l := by
  unfold dropTargetSections
  apply List.filter_eq_self.mpr
  intro c hc
  cases hcs : c.isSection with
  | false => simp [hcs]
  | true =>
    have hne : c.name ≠ t := fun hn => h c hc ⟨hcs, hn⟩
    simp [hcs, hne]

/-- Where `mergeBlocks` puts the new chunk when the existing section blocks
are strictly ascending: either a pure insertion (no block of the target name
existed) or an in-place replacement of the unique target block; in both
cases every other chunk survives in order. -/
theorem mergeBlocks_pairwise_split (blocks : List Chunk) (newChunk : Chunk)
    (t : Line)
    (hpw : blocks.Pairwise (fun a b => a.isSection = true → b.isSection = true →
      goLess a.name b.name = true)) :
    (∃ P S, blocks = P ++ S ∧
        mergeBlocks blocks newChunk t = P ++ newChunk :: S ∧
        ∀ b ∈ blocks, ¬(b.isSection = true ∧ b.name = t)) ∨
    (∃ P bsec S, blocks = P ++ bsec :: S ∧ bsec.isSection = true ∧
        bsec.name = t ∧ mergeBlocks blocks newChunk t = P ++ newChunk :: S) := by
  induction blocks with
  | nil =>
    left
    exact ⟨[], [], rfl, rfl, by simp⟩
  | cons b rest ih =>
    rcases List.pairwise_cons.mp hpw with ⟨hb, hrest⟩
    by_cases h1 : (b.isSection && b.name == t) = true
    · have h1' : b.isSection = true ∧ b.name = t := by simpa using h1
      have hbsec : b.isSection = true := h1'.1
      have hbname : b.name = t := h1'.2
      have hnone : ∀ c ∈ rest, ¬(c.isSection = true ∧ c.name = t) := by
        rintro c hc ⟨hcs, hcn⟩
        have hlt := hb c hc hbsec hcs
        rw [hbname, hcn, goLess_irrefl] at hlt
        cases hlt
      right
      refine ⟨[], b, rest, rfl, hbsec, hbname, ?_⟩
      show mergeBlocks (b :: rest) newChunk t = newChunk :: rest
      simp only [mergeBlocks]
      rw [if_pos h1, dropTargetSections_eq_self hnone]
    · by_cases h2 : (b.isSection && goLess t b.name) = true
      · have h2' : b.isSection = true ∧ goLess t b.name = true := by simpa using h2
        have hbsec : b.isSection = true := h2'.1
        have hlt : goLess t b.name = true := h2'.2
        have hbnt : ¬(b.name = t) := by
          intro hn
          rw [hn, goLess_irrefl] at hlt
          cases hlt
        have hnone : ∀ c ∈ rest, ¬(c.isSection = true ∧ c.name = t) := by
          rintro c hc ⟨hcs, hcn⟩
          have hgt := hb c hc hbsec hcs
          rw [hcn] at hgt
          have hrefl := goLess_trans hlt hgt
          rw [goLess_irrefl] at hrefl
          cases hrefl
        left
        refine ⟨[], b :: rest, rfl, ?_, ?_⟩
        · show mergeBlocks (b :: rest) newChunk t = newChunk :: b :: rest
          simp only [mergeBlocks]
          rw [if_neg h1, if_pos h2, dropTargetSections_eq_self hnone]
        · intro c hc
          rcases List.mem_cons.mp hc with rfl | hc2
          · rintro ⟨hcs, hcn⟩
            exact hbnt hcn
          · exact hnone c hc2
      · rcases ih hrest with ⟨P, S, hPS, hmerge, hnone⟩ |
          ⟨P, bsec, S, hPS, hs, hn, hmerge⟩
        · left
          refine ⟨b :: P, S, by rw [hPS]; rfl, ?_, ?_⟩
          · show mergeBlocks (b :: rest) newChunk t = (b :: P) ++ newChunk :: S
            simp only [mergeBlocks]
            rw [if_neg h1, if_neg h2, hmerge]
            rfl
          · intro c hc
            rcases List.mem_cons.mp hc with rfl | hc2
            · rintro ⟨hcs, hcn⟩
              exact h1 (by rw [hcs, hcn]; simp)
            · exact hnone c hc2
        · right
          refine ⟨b :: P, bsec, S, by rw [hPS]; rfl, hs, hn, ?_⟩
          show mergeBlocks (b :: rest) newChunk t = (b :: P) ++ newChunk :: S
          simp only [mergeBlocks]
          rw [if_neg h1, if_neg h2, hmerge]
          rfl

/-! ## Claim C3: the merge is a frame-preserving splice -/

/-- C3 counterexample: merging section `a` into the non-newline-terminated
content `"x"` yields `"x\n# BEGIN a\ny\n# END a\n"`. No decomposition of
`"x"` as `A ++ B` satisfies `new = A ++ <inserted block bytes> ++ B` (every
such decomposition is `A = "x".take n`, `B = "x".drop n` for some
`n ≤ length "x"`), because the serializer appends a newline after the `x`:
the byte outside the inserted block changed, refuting the claim as stated. -/
theorem merged_content_frame_violation_without_newline :
    computeMergedContent "x".data ["y".data] "a".data =
      .ok ("x\n# BEGIN a\ny\n# END a\n".data, true) ∧
    ¬∃ n, n ≤ ("x".data).length ∧
      "x\n# BEGIN a\ny\n# END a\n".data =
        ("x".data).take n ++ serializeLines (wrapSection ["y".data] "a".data) ++
        ("x".data).drop n := by decide

/-- C3 (amended): for a newline-terminated (or empty) original whose parsed
section blocks are strictly ascending by name (in particular, at most one
block of the merged name exists), the merged content is the original with
one contiguous region spliced: `old = A ++ oldBlock ++ B` and
`new = A ++ <new section block bytes> ++ B`, where `oldBlock` is the
replaced section block's bytes, or empty for a pure insertion. Everything
outside that region is byte-identical. -/
theorem merged_content_frame (old : List Char) (src : List Line) (t : Line)
    (blocks : List Chunk) (nb : List Char) (ch : Bool)
    (hterm : old = [] ∨ old.getLast? = some '\n')
    (hparse : parseBlocks (splitLines old) t = .ok blocks)
    (hpw : blocks.Pairwise (fun a b => a.isSection = true → b.isSection = true →
      goLess a.name b.name = true))
    (hok : computeMergedContent old src t = .ok (nb, ch)) :
    ∃ A B oldBlock, old = A ++ oldBlock ++ B ∧
      nb = A ++ serializeLines (wrapSection src t) ++ B ∧
      (oldBlock = [] ∨ ∃ b ∈ blocks, b.isSection = true ∧ b.name = t ∧
        oldBlock = serializeLines b.lines) := by
  have hold : serializeBlocks blocks = old := by
    unfold parseBlocks at hparse
    cases hfv : findValidSections (splitLines old) t with
    | error e => rw [hfv] at hparse; cases hparse
    | ok spans =>
      rw [hfv] at hparse
      injection hparse with hparse
      rw [← hparse]
      have hwf := findValidSectionsAux_wf (splitLines old) t
        (splitLines old).length 0 spans hfv
      rw [serializeBlocks_eq_chunkJoin, chunkJoin_buildBlocks _ spans 0 hwf,
        List.drop_zero]
      exact serializeLines_splitLines_of_terminated hterm
  have hnb : nb = serializeBlocks
      (mergeBlocks blocks ⟨true, t, wrapSection src t⟩ t) := by
    unfold computeMergedContent at hok
    rw [hparse] at hok
    simp only [Except.ok.injEq, Prod.mk.injEq] at hok
    exact hok.1.symm
  rcases mergeBlocks_pairwise_split blocks ⟨true, t, wrapSection src t⟩ t hpw with
    ⟨P, S, hPS, hmerge, _⟩ | ⟨P, bsec, S, hPS, hs, hn, hmerge⟩
  · refine ⟨serializeBlocks P, serializeBlocks S, [], ?_, ?_, Or.inl rfl⟩
    · rw [← hold, hPS, serializeBlocks_append]
      simp
    · rw [hnb, hmerge, serializeBlocks_append]
      simp [serializeBlocks, List.append_assoc]
  · refine ⟨serializeBlocks P, serializeBlocks S, serializeLines bsec.lines,
      ?_, ?_, Or.inr ⟨bsec, ?_, hs, hn, rfl⟩⟩
    · rw [← hold, hPS, serializeBlocks_append]
      simp [serializeBlocks, List.append_assoc]
    · rw [hnb, hmerge, serializeBlocks_append]
      simp [serializeBlocks, List.append_assoc]
    · rw [hPS]
      simp

/-- Witness for the amended C3 at a concrete input: inserting section `a`
before the existing `b` block. -/
theorem merged_content_frame_witness :
    ∃ A B oldBlock, "# BEGIN b\nv\n# END b\n".data = A ++ oldBlock ++ B ∧
      "# BEGIN a\ny\n# END a\n# BEGIN b\nv\n# END b\n".data =
        A ++ serializeLines (wrapSection ["y".data] "a".data) ++ B ∧
      (oldBlock = [] ∨ ∃ b ∈ [Chunk.mk true "b".data
          ["# BEGIN b".data, "v".data, "# END b".data]],
        b.isSection = true ∧ b.name = "a".data ∧
        oldBlock = serializeLines b.lines) :=
  merged_content_frame "# BEGIN b\nv\n# END b\n".data ["y".data] "a".data
    [Chunk.mk true "b".data ["# BEGIN b".data, "v".data, "# END b".data]]
    "# BEGIN a\ny\n# END a\n# BEGIN b\nv\n# END b\n".data true
    (by decide) (by decide) (by decide) (by decide)


/-! ## Support lemmas: wrapped sections re-parse to themselves -/

theorem matchBegin_wrap {name : Line} (h : name ≠ []) :
    matchBegin (beginMarker ++ name) = some name := by
  unfold matchBegin matchTag
  have h1 : (beginMarker ++ name).take beginMarker.length = beginMarker :=
    List.take_left _ _
  have h2 : beginMarker.length < (beginMarker ++ name).length := by
    rw [List.length_append]
    have := List.length_pos.mpr h
    omega
  rw [if_pos ⟨h1, h2⟩, List.drop_left]

theorem matchEnd_wrap {name : Line} (h : name ≠ []) :
    matchEnd (endMarker ++ name) = some name := by
  unfold matchEnd matchTag
  have h1 : (endMarker ++ name).take endMarker.length = endMarker :=
    List.take_left _ _
  have h2 : endMarker.length < (endMarker ++ name).length := by
    rw [List.length_append]
    have := List.length_pos.mpr h
    omega
  rw [if_pos ⟨h1, h2⟩, List.drop_left]

theorem matchEnd_beginMarker (name : Line) :
    matchEnd (beginMarker ++ name) = none := by
  unfold matchEnd matchTag
  rw [if_neg]
  rintro ⟨h1, h2⟩
  rw [List.take_append_of_le_length (by decide)] at h1
  exact beginMarker_take_ne_endMarker h1

theorem matchBegin_endMarker (name : Line) :
    matchBegin (endMarker ++ name) = none := by
  unfold matchBegin matchTag
  rw [if_neg]
  rintro ⟨h1, h2⟩
  have h3 := congrArg (fun l => l[2]?) h1
  simp only at h3
  rw [List.getElem?_take, if_pos (by decide), List.getElem?_append,
    if_pos (by decide)] at h3
  exact absurd h3 (by decide)

theorem findEndTagFrom_append_nonmarkers {pre ls : List Line} {name : Line}
    (h : ∀ l ∈ pre, matchBegin l = none ∧ matchEnd l = none) :
    findEndTagFrom (pre ++ ls) name =
      (findEndTagFrom ls name).map (· + pre.length) := by
  induction pre with
  | nil => simp
  | cons p ps ih =>
    have hp := h p (List.mem_cons_self p ps)
    have hps : ∀ l ∈ ps, matchBegin l = none ∧ matchEnd l = none :=
      fun l hl => h l (List.mem_cons_of_mem p hl)
    show findEndTagFrom (p :: (ps ++ ls)) name = _
    simp only [findEndTagFrom]
    simp only [hp.1, hp.2]
    rw [if_neg (by simp), if_neg (by simp), ih hps, Option.map_map]
    congr 1

/-- The scanner on a run of cleanly wrapped section chunks: no error, and
exactly one span per chunk, in order. -/
theorem findValidSectionsAux_clean (lines : List Line) (t : Line) :
    ∀ cs fuel i, (∀ c ∈ cs, IsCleanChunk c) → lines.drop i = chunkJoin cs →
      lines.length ≤ i + fuel →
      findValidSectionsAux lines t i fuel = .ok (spansOf cs i) := by
  intro cs
  induction cs with
  | nil =>
    intro fuel i _ hdrop hfuel
    have hlen : lines.length ≤ i := by
      have h0 := congrArg List.length hdrop
      rw [List.length_drop] at h0
      simp [chunkJoin] at h0
      omega
    cases fuel with
    | zero => rfl
    | succ fuel =>
      simp only [findValidSectionsAux]
      rw [dif_neg (by omega)]
      rfl
  | cons c rest ih =>
    intro fuel i hclean hdrop hfuel
    obtain ⟨hsec, hname_ne, hname_nl, body, hbody, hlines⟩ :=
      hclean c (List.mem_cons_self c rest)
    have hrestclean : ∀ x ∈ rest, IsCleanChunk x :=
      fun x hx => hclean x (List.mem_cons_of_mem c hx)
    have hdrop' : lines.drop i = c.lines ++ chunkJoin rest := hdrop
    have hclen : c.lines.length = body.length + 2 := by
      rw [hlines]; simp [wrapSection]
    have hi : i < lines.length := by
      have h0 := congrArg List.length hdrop'
      rw [List.length_drop, List.length_append, hclen] at h0
      omega
    cases fuel with
    | zero => exact absurd hfuel (by omega)
    | succ fuel =>
      have hfirst : lines[i] = beginMarker ++ c.name := by
        have h0 : (lines.drop i)[0]? = some (beginMarker ++ c.name) := by
          rw [hdrop', hlines]
          simp [wrapSection]
        rw [List.getElem?_drop, Nat.add_zero, List.getElem?_eq_getElem hi] at h0
        injection h0
      simp only [findValidSectionsAux]
      rw [dif_pos hi]
      have hb : matchBegin lines[i] = some c.name := by
        rw [hfirst]; exact matchBegin_wrap hname_ne
      simp only [hb]
      have hdrop1 : lines.drop (i + 1) =
          body ++ ((endMarker ++ c.name) :: chunkJoin rest) := by
        have h9 : lines.drop (i + 1) = (lines.drop i).drop 1 := by
          rw [List.drop_drop]
        rw [h9, hdrop', hlines]
        show (body ++ [endMarker ++ c.name]) ++ chunkJoin rest = _
        rw [List.append_assoc]
        rfl
      have hfe : findEndTag lines (i + 1) c.name = some (i + 1 + body.length) := by
        unfold findEndTag
        rw [hdrop1, findEndTagFrom_append_nonmarkers
          (fun l hl => ⟨(hbody l hl).1, (hbody l hl).2.1⟩)]
        have h5 : findEndTagFrom ((endMarker ++ c.name) :: chunkJoin rest) c.name =
            some 0 := by
          unfold findEndTagFrom
          rw [if_pos (matchEnd_wrap hname_ne)]
        rw [h5]
        simp
      simp only [hfe]
      have hdrop2 : lines.drop (i + 1 + body.length + 1) = chunkJoin rest := by
        have h9 : lines.drop (i + 1 + body.length + 1) =
            (lines.drop i).drop (body.length + 2) := by
          rw [List.drop_drop]
          congr 1
          omega
        rw [h9, hdrop', ← hclen, List.drop_left]
      have hrec := ih fuel (i + 1 + body.length + 1) hrestclean hdrop2 (by omega)
      simp only [hrec]
      show _ = Except.ok (spansOf (c :: rest) i)
      simp only [spansOf, hclen]
      have e1 : i + (body.length + 2) - 1 = i + 1 + body.length := by omega
      have e2 : i + (body.length + 2) = i + 1 + body.length + 1 := by omega
      rw [e1, e2]


theorem buildBlocks_spansOf (lines : List Line) :
    ∀ cs i, (∀ c ∈ cs, c.isSection = true ∧ c.lines ≠ []) →
      lines.drop i = chunkJoin cs →
      buildBlocks lines (spansOf cs i) i = cs := by
  intro cs
  induction cs with
  | nil =>
    intro i _ hdrop
    have h0 := congrArg List.length hdrop
    rw [List.length_drop] at h0
    simp [chunkJoin] at h0
    show buildBlocks lines [] i = []
    unfold buildBlocks
    rw [if_neg (by omega)]
  | cons c rest ih =>
    intro i hprops hdrop
    obtain ⟨hsec, hne⟩ := hprops c (List.mem_cons_self c rest)
    have hdrop' : lines.drop i = c.lines ++ chunkJoin rest := hdrop
    have hlen1 : 1 ≤ c.lines.length := by
      cases hL : c.lines with
      | nil => exact absurd hL hne
      | cons x xs => simp
    have e1 : i + c.lines.length - 1 + 1 - i = c.lines.length := by omega
    have e2 : i + c.lines.length - 1 + 1 = i + c.lines.length := by omega
    have htake : (lines.drop i).take c.lines.length = c.lines := by
      rw [hdrop', List.take_left]
    have hdrop2 : lines.drop (i + c.lines.length) = chunkJoin rest := by
      have h9 : lines.drop (i + c.lines.length) =
          (lines.drop i).drop c.lines.length := by
        rw [List.drop_drop]
      rw [h9, hdrop', List.drop_left]
    have hchunk : Chunk.mk true c.name c.lines = c := by
      cases c with
      | mk s n ls =>
        simp only at hsec
        rw [hsec]
    have harg := ih (i + c.lines.length)
      (fun x hx => hprops x (List.mem_cons_of_mem c hx)) hdrop2
    show buildBlocks lines
      (⟨i, i + c.lines.length - 1, c.name⟩ :: spansOf rest (i + c.lines.length)) i =
      c :: rest
    unfold buildBlocks
    rw [if_neg (show ¬ i < i from by omega)]
    show Chunk.mk true c.name
        ((lines.drop i).take (i + c.lines.length - 1 + 1 - i)) ::
        buildBlocks lines (spansOf rest (i + c.lines.length))
          (i + c.lines.length - 1 + 1) = c :: rest
    rw [e1, e2, htake, hchunk, harg]

theorem mergeBlocks_names_mem (cs : List Chunk) (newc : Chunk) (t : Line) :
    ∀ x ∈ (mergeBlocks cs newc t).map Chunk.name,
      x = newc.name ∨ x ∈ cs.map Chunk.name := by
  induction cs with
  | nil =>
    intro x hx
    simp [mergeBlocks] at hx
    exact Or.inl hx
  | cons b rest ih =>
    intro x hx
    simp only [mergeBlocks] at hx
    by_cases h1 : (b.isSection && b.name == t) = true
    · rw [if_pos h1, List.map_cons] at hx
      rcases List.mem_cons.mp hx with rfl | hx2
      · exact Or.inl rfl
      · right
        rw [List.map_cons]
        refine List.mem_cons_of_mem _ ?_
        exact (((List.filter_sublist rest).map Chunk.name).subset) hx2
    · rw [if_neg h1] at hx
      by_cases h2 : (b.isSection && goLess t b.name) = true
      · rw [if_pos h2, List.map_cons, List.map_cons] at hx
        rcases List.mem_cons.mp hx with rfl | hx2
        · exact Or.inl rfl
        · rcases List.mem_cons.mp hx2 with rfl | hx3
          · right
            rw [List.map_cons]
            exact List.mem_cons_self _ _
          · right
            rw [List.map_cons]
            refine List.mem_cons_of_mem _ ?_
            exact (((List.filter_sublist rest).map Chunk.name).subset) hx3
      · rw [if_neg h2, List.map_cons] at hx
        rcases List.mem_cons.mp hx with rfl | hx2
        · right
          rw [List.map_cons]
          exact List.mem_cons_self _ _
        · rcases ih x hx2 with h | h
          · exact Or.inl h
          · right
            rw [List.map_cons]
            exact List.mem_cons_of_mem _ h

theorem mergeBlocks_clean_sorted (t : Line) (newc : Chunk)
    (hnew : IsCleanChunk newc) (hnm : newc.name = t) :
    ∀ cs, (∀ c ∈ cs, IsCleanChunk c) →
      ((cs.map Chunk.name).Pairwise fun a b => goLess a b = true) →
      (∀ c ∈ mergeBlocks cs newc t, IsCleanChunk c) ∧
      (((mergeBlocks cs newc t).map Chunk.name).Pairwise
        fun a b => goLess a b = true) := by
  intro cs
  induction cs with
  | nil =>
    intro _ _
    constructor
    · intro c hc
      simp [mergeBlocks] at hc
      rw [hc]
      exact hnew
    · simp [mergeBlocks]
  | cons b rest ih =>
    intro hclean hsorted
    have hbclean := hclean b (List.mem_cons_self b rest)
    have hrestclean : ∀ c ∈ rest, IsCleanChunk c :=
      fun c hc => hclean c (List.mem_cons_of_mem b hc)
    rw [List.map_cons] at hsorted
    rcases List.pairwise_cons.mp hsorted with ⟨hb, hrest⟩
    by_cases h1 : (b.isSection && b.name == t) = true
    · have hbname : b.name = t := (by simpa using h1 :
        b.isSection = true ∧ b.name = t).2
      have hnone : ∀ c ∈ rest, ¬(c.isSection = true ∧ c.name = t) := by
        rintro c hc ⟨hcs, hcn⟩
        have hx := hb c.name (List.mem_map_of_mem Chunk.name hc)
        rw [hbname, hcn, goLess_irrefl] at hx
        cases hx
      have hdrop := dropTargetSections_eq_self hnone
      constructor
      · intro c hc
        simp only [mergeBlocks] at hc
        rw [if_pos h1, hdrop] at hc
        rcases List.mem_cons.mp hc with rfl | hc2
        · exact hnew
        · exact hrestclean c hc2
      · simp only [mergeBlocks]
        rw [if_pos h1, hdrop, List.map_cons]
        refine List.pairwise_cons.mpr ⟨?_, hrest⟩
        intro x hx
        have hx2 := hb x hx
        rw [hbname] at hx2
        rw [hnm]
        exact hx2
    · by_cases h2 : (b.isSection && goLess t b.name) = true
      · have hlt : goLess t b.name = true := (by simpa using h2 :
          b.isSection = true ∧ goLess t b.name = true).2
        have hnone : ∀ c ∈ rest, ¬(c.isSection = true ∧ c.name = t) := by
          rintro c hc ⟨hcs, hcn⟩
          have hgt := hb c.name (List.mem_map_of_mem Chunk.name hc)
          rw [hcn] at hgt
          have hx := goLess_trans hlt hgt
          rw [goLess_irrefl] at hx
          cases hx
        have hdrop := dropTargetSections_eq_self hnone
        constructor
        · intro c hc
          simp only [mergeBlocks] at hc
          rw [if_neg h1, if_pos h2, hdrop] at hc
          rcases List.mem_cons.mp hc with rfl | hc2
          · exact hnew
          · rcases List.mem_cons.mp hc2 with rfl | hc3
            · exact hbclean
            · exact hrestclean c hc3
        · simp only [mergeBlocks]
          rw [if_neg h1, if_pos h2, hdrop, List.map_cons, List.map_cons]
          refine List.pairwise_cons.mpr ⟨?_, List.pairwise_cons.mpr ⟨hb, hrest⟩⟩
          intro x hx
          rcases List.mem_cons.mp hx with rfl | hx2
          · rw [hnm]
            exact hlt
          · rw [hnm]
            exact goLess_trans hlt (hb x hx2)
      · have hbsec : b.isSection = true := hbclean.1
        have hbeq : (b.name == t) = false := by
          cases hbe : (b.name == t) with
          | false => rfl
          | true => exact absurd (by rw [hbsec, hbe]; rfl) h1
        have hbne : b.name ≠ t := by simpa using hbeq
        have hnlt : goLess t b.name = false := by
          cases hg : goLess t b.name with
          | false => rfl
          | true => exact absurd (by rw [hbsec, hg]; rfl) h2
        have hblt : goLess b.name t = true := by
          rcases goLess_trichotomy b.name t with h | h | h
          · exact h
          · exact absurd h hbne
          · rw [h] at hnlt; cases hnlt
        obtain ⟨ihclean, ihsorted⟩ := ih hrestclean hrest
        constructor
        · intro c hc
          simp only [mergeBlocks] at hc
          rw [if_neg h1, if_neg h2] at hc
          rcases List.mem_cons.mp hc with rfl | hc2
          · exact hbclean
          · exact ihclean c hc2
        · simp only [mergeBlocks]
          rw [if_neg h1, if_neg h2, List.map_cons]
          refine List.pairwise_cons.mpr ⟨?_, ihsorted⟩
          intro x hx
          rcases mergeBlocks_names_mem rest newc t x hx with rfl | hx2
          · rw [hnm]
            exact hblt
          · exact hb x hx2

theorem spansOf_names (cs : List Chunk) :
    ∀ i, (spansOf cs i).map Span.name = cs.map Chunk.name := by
  induction cs with
  | nil => intro i; rfl
  | cons c rest ih =>
    intro i
    simp only [spansOf, List.map_cons, ih]

theorem chunkJoin_no_newline {cs : List Chunk} (h : ∀ c ∈ cs, IsCleanChunk c) :
    ∀ l ∈ chunkJoin cs, '\n' ∉ l := by
  induction cs with
  | nil => intro l hl; cases hl
  | cons c rest ih =>
    intro l hl
    obtain ⟨hsec, hname_ne, hname_nl, body, hbody, hlines⟩ :=
      h c (List.mem_cons_self c rest)
    rcases List.mem_append.mp hl with hl1 | hl2
    · rw [hlines] at hl1
      intro hnl
      rcases List.mem_cons.mp hl1 with rfl | hl3
      · rcases List.mem_append.mp hnl with hm | hm
        · exact absurd hm (by decide)
        · exact hname_nl hm
      · rcases List.mem_append.mp hl3 with hm | hm
        · exact (hbody l hm).2.2 hnl
        · rw [List.mem_singleton.mp hm] at hnl
          rcases List.mem_append.mp hnl with hx | hx
          · exact absurd hx (by decide)
          · exact hname_nl hx
    · exact ih (fun x hx => h x (List.mem_cons_of_mem c hx)) l hl2

/-- One clean merge keeps the serialized clean-sorted-chunks invariant. -/
theorem mergeApply_invariant (content : List Char) (cs : List Chunk)
    (hclean : ∀ c ∈ cs, IsCleanChunk c)
    (hsorted : (cs.map Chunk.name).Pairwise fun a b => goLess a b = true)
    (hcontent : content = serializeBlocks cs)
    (t : Line) (body : List Line) (ht1 : t ≠ []) (ht2 : '\n' ∉ t)
    (hbody : ∀ l ∈ body, matchBegin l = none ∧ matchEnd l = none ∧ '\n' ∉ l) :
    ∃ cs', (∀ c ∈ cs', IsCleanChunk c) ∧
      ((cs'.map Chunk.name).Pairwise fun a b => goLess a b = true) ∧
      mergeApply content body t = serializeBlocks cs' := by
  have hsplit : splitLines content = chunkJoin cs := by
    rw [hcontent, serializeBlocks_eq_chunkJoin]
    exact splitLines_serializeLines (chunkJoin cs) (chunkJoin_no_newline hclean)
  have hscan : findValidSections (splitLines content) t = .ok (spansOf cs 0) := by
    unfold findValidSections
    exact findValidSectionsAux_clean (splitLines content) t cs
      (splitLines content).length 0 hclean (by rw [List.drop_zero]; exact hsplit)
      (by omega)
  have hparse : parseBlocks (splitLines content) t = .ok cs := by
    unfold parseBlocks
    simp only [hscan]
    rw [buildBlocks_spansOf (splitLines content) cs 0
      (fun c hc => ⟨(hclean c hc).1, by
        obtain ⟨_, hne, _, b2, _, hl⟩ := hclean c hc
        rw [hl]
        simp [wrapSection]⟩)
      (by rw [List.drop_zero]; exact hsplit)]
  have hnewclean : IsCleanChunk ⟨true, t, wrapSection body t⟩ :=
    ⟨rfl, ht1, ht2, body, fun l hl => hbody l hl, rfl⟩
  obtain ⟨hclean', hsorted'⟩ := mergeBlocks_clean_sorted t
    ⟨true, t, wrapSection body t⟩ hnewclean rfl cs hclean hsorted
  refine ⟨mergeBlocks cs ⟨true, t, wrapSection body t⟩ t, hclean', hsorted', ?_⟩
  unfold mergeApply mergeSectionWrite
  have hcc : computeMergedContent content body t =
      .ok (serializeBlocks (mergeBlocks cs ⟨true, t, wrapSection body t⟩ t),
        !(serializeBlocks (mergeBlocks cs ⟨true, t, wrapSection body t⟩ t) ==
          content)) := by
    unfold computeMergedContent
    rw [hparse]
  rw [hcc]
  by_cases hch : (serializeBlocks (mergeBlocks cs ⟨true, t, wrapSection body t⟩ t)
      == content) = true
  · rw [hch]
    have := beq_iff_eq.mp hch
    simp [this.symm]
  · rw [Bool.not_eq_true] at hch
    rw [hch]
    rfl

/-! ## Claim C2: merged section blocks stay sorted -/

/-- C2 counterexample: one merge of section `a` whose body itself contains
marker lines. The claim's antecedent (a sequence of merges applied to an
initially empty file) holds, yet the resulting content's section blocks —
as the code's own scanner reports them — are named `a`, `z`, `b` in that
order, and `z` does not sort before `b`. -/
theorem merged_sections_not_sorted_with_marker_body :
    (mergeSectionWrite [] ["# END a".data, "# BEGIN z".data, "# END z".data,
        "# BEGIN b".data, "# END b".data] "a".data).2.2 = false ∧
    findValidSections (splitLines (applyMerges []
        [("a".data, ["# END a".data, "# BEGIN z".data, "# END z".data,
          "# BEGIN b".data, "# END b".data])])) "q".data =
      .ok [⟨0, 1, "a".data⟩, ⟨2, 3, "z".data⟩, ⟨4, 5, "b".data⟩] ∧
    goLess "z".data "b".data = false := by decide

/-- C2 (amended): starting from an empty file, any sequence of merges whose
section names are usable (nonempty, newline-free) and whose bodies contain
no marker lines and no newlines produces content whose section blocks — as
reported by the scanner for any target name — appear in strictly ascending
Go-string order of their names. -/
theorem merges_from_empty_sections_sorted (ms : List (Line × List Line))
    (hms : ∀ m ∈ ms, m.1 ≠ [] ∧ '\n' ∉ m.1 ∧
      ∀ l ∈ m.2, matchBegin l = none ∧ matchEnd l = none ∧ '\n' ∉ l)
    (q : Line) :
    ∃ spans, findValidSections (splitLines (applyMerges [] ms)) q = .ok spans ∧
      ((spans.map Span.name).Pairwise fun a b => goLess a b = true) := by
  suffices h : ∀ (ms' : List (Line × List Line)) (content : List Char)
      (cs : List Chunk), (∀ c ∈ cs, IsCleanChunk c) →
      ((cs.map Chunk.name).Pairwise fun a b => goLess a b = true) →
      content = serializeBlocks cs →
      (∀ m ∈ ms', m.1 ≠ [] ∧ '\n' ∉ m.1 ∧
        ∀ l ∈ m.2, matchBegin l = none ∧ matchEnd l = none ∧ '\n' ∉ l) →
      ∃ spans, findValidSections (splitLines (applyMerges content ms')) q =
        .ok spans ∧
        ((spans.map Span.name).Pairwise fun a b => goLess a b = true) by
    exact h ms [] [] (by simp) (by simp) rfl hms
  intro ms'
  induction ms' with
  | nil =>
    intro content cs hclean hsorted hcontent _
    refine ⟨spansOf cs 0, ?_, ?_⟩
    · show findValidSections (splitLines content) q = _
      have hsplit : splitLines content = chunkJoin cs := by
        rw [hcontent, serializeBlocks_eq_chunkJoin]
        exact splitLines_serializeLines (chunkJoin cs) (chunkJoin_no_newline hclean)
      unfold findValidSections
      exact findValidSectionsAux_clean (splitLines content) q cs
        (splitLines content).length 0 hclean
        (by rw [List.drop_zero]; exact hsplit) (by omega)
    · rw [spansOf_names]
      exact hsorted
  | cons m rest ih =>
    intro content cs hclean hsorted hcontent hms'
    obtain ⟨ht1, ht2, hbody⟩ := hms' m (List.mem_cons_self m rest)
    obtain ⟨cs', hclean', hsorted', happ⟩ := mergeApply_invariant content cs
      hclean hsorted hcontent m.1 m.2 ht1 ht2 hbody
    show ∃ spans, findValidSections
      (splitLines (applyMerges (mergeApply content m.2 m.1) rest)) q = _ ∧ _
    exact ih (mergeApply content m.2 m.1) cs' hclean' hsorted' happ
      (fun x hx => hms' x (List.mem_cons_of_mem m hx))

/-- Witness for the amended C2 at a concrete input: merging `b` then `a`
into an empty file yields blocks in the order `a`, `b`. -/
theorem merges_from_empty_sections_sorted_witness :
    ∃ spans, findValidSections (splitLines (applyMerges []
        [("b".data, ["x".data]), ("a".data, ["y".data])])) "q".data =
      .ok spans ∧
      ((spans.map Span.name).Pairwise fun a b => goLess a b = true) :=
  merges_from_empty_sections_sorted
    [("b".data, ["x".data]), ("a".data, ["y".data])] (by decide) "q".data

end Etcdotica
